import Mathlib

/-!
Verification of the position-reconciliation engine of the trade-tracker
repository: a shallow embedding of `sync_positions_from_trades`,
`close_option_trade` (src/db/db_utils.py), `aggregate_gains`
(src/ui/taxes_ui.py) and the assignment/exercise synthetic-trade logic
(src/ui/data_entry.py), together with proofs of the specified properties.

Modelling conventions:
* Python floats are modelled as exact rationals (ℚ).  `round(x, n)` is
  modelled as rounding `x * 10^n` to the nearest integer (Mathlib `round`,
  half-up at ties; Python uses half-even on binary floats — no property
  below depends on the tie direction, and all quantities after the first
  `round(_, 6)` are exact multiples of 1e-6, where the two agree).
* Python `str.lower` / `str.strip` are modelled on ASCII (`pyLower`,
  `pyStrip`); every string the program compares is ASCII.
* Dates are records carrying a day number (for ordering and differences)
  and a year (for tax bucketing), mirroring Python `date`.
* SQL tables are lists of rows; `DELETE ... WHERE` is `List.filter`,
  `INSERT` appends, `SELECT ... WHERE id = x` is `List.find?`.
-/

namespace TradeTracker

/-! ## Rounding (Python `round(x, 6)` / `round(x, 2)` on exact rationals) -/

def round6 (q : ℚ) : ℚ := (round (q * 1000000) : ℚ) / 1000000

def round2 (q : ℚ) : ℚ := (round (q * 100) : ℚ) / 100

/-- The float-safety epsilon `1e-6` used by the lot matcher. -/
def eps : ℚ := 1 / 1000000

/-- `q` is an exact multiple of 1e-6 (every output of `round6` is). -/
def Mul6 (q : ℚ) : Prop := ∃ n : ℤ, q = (n : ℚ) / 1000000

theorem mul6_round6 (q : ℚ) : Mul6 (round6 q) := ⟨round (q * 1000000), rfl⟩

theorem round6_intCast_div (n : ℤ) : round6 ((n : ℚ) / 1000000) = (n : ℚ) / 1000000 := by
  unfold round6
  rw [div_mul_cancel₀ _ (by norm_num), round_intCast]

theorem round6_of_mul6 {q : ℚ} (h : Mul6 q) : round6 q = q := by
  obtain ⟨n, rfl⟩ := h
  exact round6_intCast_div n

theorem mul6_zero : Mul6 0 := ⟨0, by norm_num⟩

theorem round6_zero : round6 0 = 0 := round6_of_mul6 mul6_zero

theorem mul6_add {a b : ℚ} (ha : Mul6 a) (hb : Mul6 b) : Mul6 (a + b) := by
  obtain ⟨m, rfl⟩ := ha; obtain ⟨n, rfl⟩ := hb
  exact ⟨m + n, by push_cast; ring⟩

theorem mul6_neg {a : ℚ} (ha : Mul6 a) : Mul6 (-a) := by
  obtain ⟨m, rfl⟩ := ha
  exact ⟨-m, by push_cast; ring⟩

theorem mul6_sub {a b : ℚ} (ha : Mul6 a) (hb : Mul6 b) : Mul6 (a - b) := by
  rw [sub_eq_add_neg]; exact mul6_add ha (mul6_neg hb)

theorem mul6_min {a b : ℚ} (ha : Mul6 a) (hb : Mul6 b) : Mul6 (min a b) := by
  rcases le_total a b with h | h
  · rwa [min_eq_left h]
  · rwa [min_eq_right h]

/-- An exact multiple of 1e-6 that the matcher's epsilon test sees as zero
is exactly zero. -/
theorem mul6_eq_zero_of_abs_lt_eps {q : ℚ} (h : Mul6 q) (habs : |q| < eps) : q = 0 := by
  obtain ⟨n, rfl⟩ := h
  have h1 : |(n : ℚ)| < 1 := by
    rw [eps] at habs
    rw [abs_div] at habs
    have : |(1000000 : ℚ)| = 1000000 := by norm_num
    rw [this] at habs
    calc |(n : ℚ)| = |(n : ℚ)| / 1000000 * 1000000 := by ring
    _ < 1 / 1000000 * 1000000 := by
        exact mul_lt_mul_of_pos_right habs (by norm_num)
    _ = 1 := by norm_num
  have h2 : |n| < 1 := by exact_mod_cast h1
  have h3 : n = 0 := Int.abs_lt_one_iff.mp h2
  rw [h3]; norm_num

/-! ## ASCII models of Python `str.lower` and `str.strip` -/

def asciiLower (c : Char) : Char :=
  if 'A' ≤ c ∧ c ≤ 'Z' then Char.ofNat (c.toNat + 32) else c

def pyLower (s : String) : String := ⟨s.data.map asciiLower⟩

def isSpaceChar (c : Char) : Bool := c = ' ' || c = '\t' || c = '\n' || c = '\r'

def pyStrip (s : String) : String :=
  ⟨((s.data.dropWhile isSpaceChar).reverse.dropWhile isSpaceChar).reverse⟩

/-- Python's substring test `sub in s`, on character lists:
`leadsWith sub l` is "l starts with sub". -/
def leadsWith : List Char → List Char → Bool
  | [], _ => true
  | _ :: _, [] => false
  | a :: as, b :: bs => a = b && leadsWith as bs

def occursInChars (sub : List Char) : List Char → Bool
  | [] => leadsWith sub []
  | c :: rest => leadsWith sub (c :: rest) || occursInChars sub rest

/-- Python `sub in s` (substring containment). -/
def py_in (sub s : String) : Bool := occursInChars sub.data s.data

/-! ## Data model -/

/-- A calendar date: `days` is the day number (orders dates, and differences
of `days` are Python `(d2 - d1).days`); `year` is Python `.year`. -/
structure Date where
  days : ℤ
  year : ℤ
deriving DecidableEq

/-- A row of the `trades` table
(`id, ticker, platform_id, price, quantity, date, trade_type`). -/
structure Trade where
  id : ℕ
  ticker : String
  platform_id : ℕ
  price : Option ℚ
  quantity : ℚ
  date : Date
  trade_type : Option String
deriving DecidableEq

/-- A normalized trade, as built per-row by `sync_positions_from_trades`:
quantity rounded to 6 decimals (zero-quantity rows are dropped before this
record is built), price defaulted to 0, trade type stripped and lowered. -/
structure NTrade where
  id : ℕ
  ticker : String
  platform_id : ℕ
  price : ℚ
  quantity : ℚ
  date : Date
  trade_type : String
deriving DecidableEq

/-- An open lot in the FIFO queue.  `origin` is a verification ghost field
(the `id` of the originating buy trade, used only to state conservation);
the remaining fields are the keys of the Python lot dict. -/
structure Lot where
  origin : ℕ
  price : ℚ
  quantity : ℚ
  entry_date : Date
  remaining : ℚ
deriving DecidableEq

/-- A row of the `positions` table.  `origin` is the same verification ghost
field as in `Lot`. -/
structure Position where
  ticker : String
  trade_type : Option String
  position_status : String
  entry_price : ℚ
  quantity : ℚ
  entry_date : Date
  exit_price : Option ℚ
  exit_date : Option Date
  platform_id : ℕ
  profit_loss : Option ℚ
  origin : ℕ
deriving DecidableEq

/-- A row of the `option_trades` table. -/
structure OptionTrade where
  id : ℕ
  ticker : String
  platform_id : ℕ
  strategy : Option String
  strike_price : ℚ
  expiry_date : Option Date
  trade_date : Option Date
  transaction_type : Option String
  option_open_price : Option ℚ
  open_fee : Option ℚ
  notes : Option String
  status : Option String
  close_date : Option Date
  option_close_price : Option ℚ
  close_fee : Option ℚ
  profit_loss : Option ℚ
deriving DecidableEq

/-! ## Lot matcher (`sync_positions_from_trades`, db_utils.py lines 239-312) -/

/-- Per-row normalization (db_utils.py lines 241-258): round quantity to six
decimals, drop the row if it rounds to zero, default a missing price to 0,
strip and lowercase the trade type. -/
def normalize (t : Trade) : Option NTrade :=
  let qty := round6 t.quantity
  if qty = 0 then none
  else some { id := t.id, ticker := t.ticker, platform_id := t.platform_id,
              price := t.price.getD 0, quantity := qty, date := t.date,
              trade_type := pyLower (pyStrip (t.trade_type.getD "")) }

/-- The SQL ordering `ORDER BY ticker, platform_id, date, id`
(db_utils.py lines 232-236); text ordering on tickers is modelled as
lexicographic ordering of their character lists. -/
def tradeLe (a b : Trade) : Prop :=
  a.ticker.data < b.ticker.data ∨ (a.ticker = b.ticker ∧
    (a.platform_id < b.platform_id ∨ (a.platform_id = b.platform_id ∧
      (a.date.days < b.date.days ∨ (a.date.days = b.date.days ∧ a.id ≤ b.id)))))

instance : DecidableRel tradeLe := fun a b => by unfold tradeLe; exact inferInstance

def sortedTrades (trades : List Trade) : List Trade := List.insertionSort tradeLe trades

def normalizedTrades (trades : List Trade) : List NTrade :=
  (sortedTrades trades).filterMap normalize

/-- First-occurrence deduplication: the iteration order of the Python
`defaultdict` keys `(ticker, platform_id)`. -/
def firstKeysAux (seen : List (String × ℕ)) : List (String × ℕ) → List (String × ℕ)
  | [] => []
  | k :: ks => if seen.contains k then firstKeysAux seen ks
               else k :: firstKeysAux (k :: seen) ks

def firstKeys (l : List (String × ℕ)) : List (String × ℕ) := firstKeysAux [] l

def syncKeys (trades : List Trade) : List (String × ℕ) :=
  firstKeys ((normalizedTrades trades).map (fun t => (t.ticker, t.platform_id)))

/-- The ordered per-key trade list `trades_by_key[(ticker, platform_id)]`. -/
def tradesForKey (trades : List Trade) (k : String × ℕ) : List NTrade :=
  (normalizedTrades trades).filter (fun t => t.ticker == k.1 && t.platform_id == k.2)

/-- The closed-position fragment appended for one match
(db_utils.py lines 284-296). -/
def mkClosedFragment (ticker : String) (platform_id : ℕ) (lot : Lot)
    (matched sell_price : ℚ) (sell_date : Date) : Position :=
  { ticker := ticker, trade_type := none, position_status := "close",
    entry_price := lot.price, quantity := matched, entry_date := lot.entry_date,
    exit_price := some sell_price, exit_date := some sell_date,
    platform_id := platform_id,
    profit_loss := some (round2 ((sell_price - lot.price) * matched)),
    origin := lot.origin }

/-- The matching `while` loop of a sell trade (db_utils.py lines 280-300):
while the (rounded) sell quantity is positive and the queue is nonempty,
match against the oldest lot, emit a closed fragment, and pop the lot when
its remainder is within `1e-6` of zero.

The loop is unrolled two iterations per lot: after one iteration the lot's
remainder and the sell quantity are outputs of `round6`, hence exact
multiples of 1e-6, so the second iteration on the same lot either empties
the lot (recursion moves to the rest of the queue) or exhausts the sell
quantity (the loop guard fails); a third iteration on one lot cannot occur.
Returns (emitted closed fragments, remaining queue). -/
def matchSell (ticker : String) (platform_id : ℕ) (sell_price : ℚ) (sell_date : Date) :
    ℚ → List Lot → List Position × List Lot
  | _, [] => ([], [])
  | sell_qty, lot :: rest =>
    if 0 < round6 sell_qty then
      let lot_qty := round6 lot.remaining
      let matched := round6 (min lot_qty sell_qty)
      let frag := mkClosedFragment ticker platform_id lot matched sell_price sell_date
      let rem1 := round6 (lot.remaining - matched)
      let sq1 := round6 (sell_qty - matched)
      if |rem1| < eps then
        let res := matchSell ticker platform_id sell_price sell_date sq1 rest
        (frag :: res.1, res.2)
      else if 0 < round6 sq1 then
        let lot' : Lot := { lot with remaining := rem1 }
        let matched2 := round6 (min (round6 rem1) sq1)
        let frag2 := mkClosedFragment ticker platform_id lot' matched2 sell_price sell_date
        let rem2 := round6 (rem1 - matched2)
        let sq2 := round6 (sq1 - matched2)
        if |rem2| < eps then
          let res := matchSell ticker platform_id sell_price sell_date sq2 rest
          (frag :: frag2 :: res.1, res.2)
        else
          ([frag, frag2], { lot' with remaining := rem2 } :: rest)
      else
        ([frag], { lot with remaining := rem1 } :: rest)
    else ([], lot :: rest)

/-- Processing one normalized trade against the state
(open-lot queue, closed fragments emitted so far); db_utils.py lines 268-300. -/
def stepTrade (ticker : String) (platform_id : ℕ)
    (s : List Lot × List Position) (t : NTrade) : List Lot × List Position :=
  if pyLower t.trade_type = "buy" then
    (s.1 ++ [{ origin := t.id, price := t.price, quantity := t.quantity,
               entry_date := t.date, remaining := round6 t.quantity }], s.2)
  else if pyLower t.trade_type = "sell" then
    let res := matchSell ticker platform_id t.price t.date (round6 t.quantity) s.1
    (res.2, s.2 ++ res.1)
  else s

/-- The lot matcher for one `(ticker, platform_id)` key: fold the ordered
normalized trades over the FIFO state. Returns (final open lots, closed
fragments in emission order). -/
def processKey (ticker : String) (platform_id : ℕ) (ts : List NTrade) :
    List Lot × List Position :=
  ts.foldl (stepTrade ticker platform_id) ([], [])

/-- The open-position row produced from a surviving lot
(db_utils.py lines 302-312). -/
def openPositionOfLot (ticker : String) (platform_id : ℕ) (lot : Lot) : Position :=
  { ticker := ticker, trade_type := none, position_status := "open",
    entry_price := lot.price, quantity := lot.remaining, entry_date := lot.entry_date,
    exit_price := none, exit_date := none, platform_id := platform_id,
    profit_loss := none, origin := lot.origin }

def computedClosedPositions (trades : List Trade) : List Position :=
  (syncKeys trades).flatMap (fun k => (processKey k.1 k.2 (tradesForKey trades k)).2)

def computedOpenPositions (trades : List Trade) : List Position :=
  (syncKeys trades).flatMap
    (fun k => ((processKey k.1 k.2 (tradesForKey trades k)).1).map (openPositionOfLot k.1 k.2))

/-- The position reconciler (db_utils.py lines 218-354) acting on the
`positions` table: delete every row whose `(ticker, platform_id)` key is
touched by the trade history, then batch-insert the freshly computed closed
positions followed by the open positions. -/
def sync_positions_from_trades (trades : List Trade) (table : List Position) : List Position :=
  (table.filter (fun p => !((syncKeys trades).contains (p.ticker, p.platform_id))))
    ++ computedClosedPositions trades ++ computedOpenPositions trades

/-! ## Option settlement (`close_option_trade`, db_utils.py lines 184-216) -/

/-- `close_option_trade`: look up the trade row by id; if found, compute the
realized profit/loss from the credit/debit direction with every `None`
numeric coerced to 0.0, otherwise leave it `None`; then run the
`UPDATE ... WHERE id = trade_id` (which touches no row when the id is
absent).  Returns the updated store and the computed `profit_loss`.
The source coerces `option_close_price` and `close_fee` to floats only
inside the row-found branch; the not-found branch binds the raw values,
which the empty `UPDATE` then ignores. -/
def close_option_trade (store : List OptionTrade) (trade_id : ℕ) (status : String)
    (close_date : Date) (option_close_price : Option ℚ) (notes : Option String)
    (close_fee : Option ℚ) : List OptionTrade × Option ℚ :=
  match store.find? (fun r => r.id == trade_id) with
  | some row =>
    let oop := row.option_open_price.getD 0
    let ocp := option_close_price.getD 0
    let ofe := row.open_fee.getD 0
    let cfe := close_fee.getD 0
    let total_fee := ofe + cfe
    let pl : ℚ :=
      if row.transaction_type = some "credit" then (oop - ocp) * 100 - total_fee
      else (ocp - oop) * 100 - total_fee
    (store.map (fun r =>
       if r.id = trade_id then
         { r with status := some status, close_date := some close_date,
                  option_close_price := some ocp, close_fee := some cfe,
                  profit_loss := some pl, notes := notes }
       else r),
     some pl)
  | none =>
    (store.map (fun r =>
       if r.id = trade_id then
         { r with status := some status, close_date := some close_date,
                  option_close_price := option_close_price, close_fee := close_fee,
                  profit_loss := none, notes := notes }
       else r),
     none)

/-! ## Assignment/exercise synthetic equity trade (data_entry.py lines 74-96) -/

/-- The equity trade row inserted by `insert_trade` (no id yet: the database
assigns one). -/
structure NewTrade where
  ticker : String
  platform_id : ℕ
  price : ℚ
  quantity : ℚ
  date : Date
  trade_type : String
deriving DecidableEq

/-- The buy/sell side chosen for the synthetic trade
(data_entry.py lines 81-88): the strategy string is lowercased, then
`"call" in strategy or "put" in strategy` selects `"Buy"`, an `elif` on
`"cash secured put"`/`"covered call"` selects `"Sell"`, and the fallback is
`"Buy"`. -/
def assignment_trade_type (strategy : Option String) : String :=
  let s := pyLower (strategy.getD "")
  if py_in "call" s || py_in "put" s then "Buy"
  else if py_in "cash secured put" s || py_in "covered call" s then "Sell"
  else "Buy"

/-- On closing with status `assigned` or `exercised`, the trade inserted
into the `trades` table: 100 shares at the option's strike price, dated at
the close date (data_entry.py lines 75-96). -/
def assignment_synthetic_trade (t : OptionTrade) (close_status : String)
    (close_date : Date) : Option NewTrade :=
  if close_status = "assigned" ∨ close_status = "exercised" then
    some { ticker := t.ticker, platform_id := t.platform_id, price := t.strike_price,
           quantity := 100, date := close_date,
           trade_type := assignment_trade_type t.strategy }
  else none

/-! ## Tax aggregation (`aggregate_gains`, taxes_ui.py lines 25-78) -/

/-- `load_option_trades(status=s)`: the option rows whose status equals `s`. -/
def load_option_trades_status (store : List OptionTrade) (s : String) : List OptionTrade :=
  store.filter (fun o => o.status == some s)

/-- The statuses `aggregate_gains` treats as closed (taxes_ui.py line 31). -/
def closed_option_statuses : List String := ["expired", "exercised", "closed"]

def long_term_days : ℤ := 365

/-- `0.15` for a long-term holding (`> 365` days), else `0.24`
(taxes_ui.py lines 8-10, 51-52). -/
def tax_rate_for (holding_days : ℤ) : ℚ :=
  if holding_days > long_term_days then 15 / 100 else 24 / 100

/-- Python `pos.get("trade_type") or "Buy"`: `None` and the empty string
fall back to `"Buy"`. -/
def stock_effective_trade_type (p : Position) : String :=
  match p.trade_type with
  | none => "Buy"
  | some s => if s = "" then "Buy" else s

/-- The per-row stock gain of `aggregate_gains` (taxes_ui.py lines 47-50):
`(entry - exit) * qty` when the effective trade type lowers to `"sell"`,
else `(exit - entry) * qty`. -/
def stock_gain (p : Position) : ℚ :=
  if pyLower (stock_effective_trade_type p) = "sell" then
    (p.entry_price - p.exit_price.getD 0) * p.quantity
  else
    (p.exit_price.getD 0 - p.entry_price) * p.quantity

/-- The `yearly` dict: an association list `(year, gain, tax)` in first-insertion
order; `yearly.setdefault` + `+=` is an upsert. -/
def upsertYear (y : ℤ) (g tx : ℚ) : List (ℤ × ℚ × ℚ) → List (ℤ × ℚ × ℚ)
  | [] => [(y, g, tx)]
  | e :: rest =>
    if e.1 = y then (y, e.2.1 + g, e.2.2 + tx) :: rest
    else e :: upsertYear y g tx rest

/-- One closed stock position's contribution to `yearly`
(taxes_ui.py lines 36-57); rows without an exit date are skipped (the model
always carries an entry date, as every reconciler row does). -/
def stock_step (acc : List (ℤ × ℚ × ℚ)) (p : Position) : List (ℤ × ℚ × ℚ) :=
  match p.exit_date with
  | none => acc
  | some xd =>
    let gain := stock_gain p
    let rate := tax_rate_for (xd.days - p.entry_date.days)
    upsertYear xd.year gain (gain * rate) acc

/-- One closed option trade's contribution to `yearly`
(taxes_ui.py lines 59-77); rows missing either boundary date are skipped. -/
def option_step (acc : List (ℤ × ℚ × ℚ)) (o : OptionTrade) : List (ℤ × ℚ × ℚ) :=
  match o.trade_date, o.close_date with
  | some td, some cd =>
    let pl := o.profit_loss.getD 0
    let rate := tax_rate_for (cd.days - td.days)
    upsertYear cd.year pl (pl * rate) acc
  | _, _ => acc

/-- `aggregate_gains` (yearly totals): stock rows first, then the option
rows gathered status-by-status from `closed_option_statuses`.
(The per-(year, asset, term) breakdown dict is not modelled; no claim
concerns it.) -/
def aggregate_gains (closed_positions : List Position) (option_store : List OptionTrade) :
    List (ℤ × ℚ × ℚ) :=
  let closed_options := closed_option_statuses.flatMap (load_option_trades_status option_store)
  closed_options.foldl option_step (closed_positions.foldl stock_step [])

/-! ## Evaluation lemmas -/

theorem r6_lit (n : ℤ) : round6 (n : ℚ) = n :=
  round6_of_mul6 ⟨n * 1000000, by push_cast; ring⟩

theorem r2_lit (n : ℤ) : round2 (n : ℚ) = n := by
  unfold round2
  rw [show ((n:ℚ) * 100) = ((n * 100 : ℤ) : ℚ) by push_cast; ring, round_intCast]
  push_cast
  ring

theorem normalize_eq_some (t : Trade) (h : ¬ round6 t.quantity = 0) :
    normalize t = some ⟨t.id, t.ticker, t.platform_id, t.price.getD 0, round6 t.quantity,
      t.date, pyLower (pyStrip (t.trade_type.getD ""))⟩ := by
  unfold normalize
  rw [if_neg h]

/-- The lot pushed onto the queue by a buy trade (db_utils.py lines 270-275). -/
def stepBuyLot (t : NTrade) : Lot :=
  { origin := t.id, price := t.price, quantity := t.quantity,
    entry_date := t.date, remaining := round6 t.quantity }

theorem stepTrade_buy {tk : String} {pid : ℕ} (t : NTrade) (h : pyLower t.trade_type = "buy")
    (s : List Lot × List Position) :
    stepTrade tk pid s t = (s.1 ++ [stepBuyLot t], s.2) := by
  unfold stepTrade stepBuyLot
  rw [if_pos h]

theorem stepTrade_sell {tk : String} {pid : ℕ} (t : NTrade) (h : pyLower t.trade_type = "sell")
    (s : List Lot × List Position) :
    stepTrade tk pid s t =
      ((matchSell tk pid t.price t.date (round6 t.quantity) s.1).2,
       s.2 ++ (matchSell tk pid t.price t.date (round6 t.quantity) s.1).1) := by
  unfold stepTrade
  rw [if_neg (by rw [h]; decide), if_pos h]

/-! ## The end-to-end example (spec §8): (AAPL, platform 1),
buy 10@100 on day 1, buy 5@110 on day 2, sell 12@120 on day 3 -/

def d1 : Date := ⟨1, 2024⟩
def d2 : Date := ⟨2, 2024⟩
def d3 : Date := ⟨3, 2024⟩

def aapl_trades : List Trade :=
  [⟨1, "AAPL", 1, some 100, 10, d1, some "Buy"⟩,
   ⟨2, "AAPL", 1, some 110, 5, d2, some "Buy"⟩,
   ⟨3, "AAPL", 1, some 120, 12, d3, some "Sell"⟩]

theorem aapl_normalized :
    normalizedTrades aapl_trades =
      [⟨1, "AAPL", 1, 100, 10, d1, "buy"⟩,
       ⟨2, "AAPL", 1, 110, 5, d2, "buy"⟩,
       ⟨3, "AAPL", 1, 120, 12, d3, "sell"⟩] := by
  have h10 : round6 (10 : ℚ) = 10 := by exact_mod_cast r6_lit 10
  have h5 : round6 (5 : ℚ) = 5 := by exact_mod_cast r6_lit 5
  have h12 : round6 (12 : ℚ) = 12 := by exact_mod_cast r6_lit 12
  have hb : pyLower (pyStrip "Buy") = "buy" := by decide
  have hs : pyLower (pyStrip "Sell") = "sell" := by decide
  have hsort : sortedTrades aapl_trades = aapl_trades := rfl
  rw [normalizedTrades, hsort]
  rw [aapl_trades]
  rw [List.filterMap_cons_some (normalize_eq_some _ (by show ¬ round6 (10:ℚ) = 0; rw [h10]; norm_num)),
      List.filterMap_cons_some (normalize_eq_some _ (by show ¬ round6 (5:ℚ) = 0; rw [h5]; norm_num)),
      List.filterMap_cons_some (normalize_eq_some _ (by show ¬ round6 (12:ℚ) = 0; rw [h12]; norm_num)),
      List.filterMap_nil]
  simp only [Option.getD_some, h10, h5, h12, hb, hs]

theorem aapl_key :
    tradesForKey aapl_trades ("AAPL", 1) =
      [⟨1, "AAPL", 1, 100, 10, d1, "buy"⟩,
       ⟨2, "AAPL", 1, 110, 5, d2, "buy"⟩,
       ⟨3, "AAPL", 1, 120, 12, d3, "sell"⟩] := by
  rw [tradesForKey, aapl_normalized]
  simp [List.filter]

/-- The full lot-matcher computation on the (AAPL, platform 1) example. -/
theorem aapl_processKey :
    processKey "AAPL" 1 (tradesForKey aapl_trades ("AAPL", 1)) =
      ([⟨2, 110, 5, d2, 3⟩],
       [⟨"AAPL", none, "close", 100, 10, d1, some 120, some d3, 1, some 200, 1⟩,
        ⟨"AAPL", none, "close", 110, 2, d2, some 120, some d3, 1, some 20, 2⟩]) := by
  have h10 : round6 (10 : ℚ) = 10 := by exact_mod_cast r6_lit 10
  have h5 : round6 (5 : ℚ) = 5 := by exact_mod_cast r6_lit 5
  have h12 : round6 (12 : ℚ) = 12 := by exact_mod_cast r6_lit 12
  have h2 : round6 (2 : ℚ) = 2 := by exact_mod_cast r6_lit 2
  have h3 : round6 (3 : ℚ) = 3 := by exact_mod_cast r6_lit 3
  have h0 : round6 (0 : ℚ) = 0 := round6_zero
  have hlb : pyLower "buy" = "buy" := by decide
  have hls : pyLower "sell" = "sell" := by decide
  rw [aapl_key, processKey, List.foldl_cons,
      stepTrade_buy ⟨1, "AAPL", 1, 100, 10, d1, "buy"⟩ hlb,
      List.foldl_cons, stepTrade_buy ⟨2, "AAPL", 1, 110, 5, d2, "buy"⟩ hlb,
      List.foldl_cons, stepTrade_sell ⟨3, "AAPL", 1, 120, 12, d3, "sell"⟩ hls,
      List.foldl_nil]
  simp only [stepBuyLot, List.nil_append, List.cons_append, h12, h10, h5]
  have hm : matchSell "AAPL" 1 120 d3 12 [⟨1, 100, 10, d1, 10⟩, ⟨2, 110, 5, d2, 5⟩] =
      ([⟨"AAPL", none, "close", 100, 10, d1, some 120, some d3, 1, some 200, 1⟩,
        ⟨"AAPL", none, "close", 110, 2, d2, some 120, some d3, 1, some 20, 2⟩],
       [⟨2, 110, 5, d2, 3⟩]) := by
    unfold matchSell
    rw [if_pos (by rw [h12]; norm_num)]
    simp only [h10, h12, show min (10:ℚ) 12 = 10 by norm_num [min_def],
               show ((10:ℚ) - 10) = 0 by norm_num, h0,
               show ((12:ℚ) - 10) = 2 by norm_num, h2]
    rw [if_pos (by norm_num [eps])]
    unfold matchSell
    rw [if_pos (by rw [h2]; norm_num)]
    simp only [h5, h2, show min (5:ℚ) 2 = 2 by norm_num [min_def],
               show ((5:ℚ) - 2) = 3 by norm_num, h3,
               show ((2:ℚ) - 2) = 0 by norm_num, h0]
    rw [if_neg (by norm_num [eps]), if_neg (by norm_num)]
    simp only [mkClosedFragment]
    norm_num
    constructor
    · exact_mod_cast r2_lit 200
    · exact_mod_cast r2_lit 20
  rw [hm]

/-- Claim C1: for the (AAPL, platform 1) stream buy 10@100 (day 1, id 1),
buy 5@110 (day 2, id 2), sell 12@120 (day 3, id 3), the lot matcher
produces exactly the two closed fragments (entry 100, qty 10, exit 120,
P/L 200.00) then (entry 110, qty 2, exit 120, P/L 20.00), in that order,
and exactly one open position (entry 110, qty 3, from the day-2 buy). -/
theorem c1_lot_matcher_example :
    (processKey "AAPL" 1 (tradesForKey aapl_trades ("AAPL", 1))).2 =
      [⟨"AAPL", none, "close", 100, 10, d1, some 120, some d3, 1, some 200, 1⟩,
       ⟨"AAPL", none, "close", 110, 2, d2, some 120, some d3, 1, some 20, 2⟩] ∧
    ((processKey "AAPL" 1 (tradesForKey aapl_trades ("AAPL", 1))).1).map
        (openPositionOfLot "AAPL" 1) =
      [⟨"AAPL", none, "open", 110, 3, d2, none, none, 1, none, 2⟩] := by
  rw [aapl_processKey]
  exact ⟨rfl, rfl⟩

/-! ## Conservation of buy quantities (spec §8, claim C2) -/

theorem mul6_pos_ge_eps {q : ℚ} (h : Mul6 q) (hpos : 0 < q) : eps ≤ q := by
  obtain ⟨n, rfl⟩ := h
  have hn0 : (0:ℤ) < n := by
    by_contra hc
    push_neg at hc
    have hle : ((n:ℚ)) ≤ 0 := by exact_mod_cast hc
    have : (n:ℚ) / 1000000 ≤ 0 := div_nonpos_of_nonpos_of_nonneg hle (by norm_num)
    linarith
  have hn1 : (1:ℚ) ≤ (n:ℚ) := by exact_mod_cast hn0
  rw [eps]
  linarith

theorem matchSell_nil (tk : String) (pid : ℕ) (sp : ℚ) (sd : Date) (sq : ℚ) :
    matchSell tk pid sp sd sq [] = ([], []) := rfl

theorem matchSell_not_pos (tk : String) (pid : ℕ) (sp : ℚ) (sd : Date) {sq : ℚ}
    (hg : ¬ 0 < round6 sq) (lot : Lot) (rest : List Lot) :
    matchSell tk pid sp sd sq (lot :: rest) = ([], lot :: rest) := by
  unfold matchSell
  rw [if_neg hg]

/-- Under the invariant that the head remainder and the sell quantity are
exact multiples of 1e-6 (which the pipeline maintains: both are outputs of
`round6`), one pass of the matching loop has the clean FIFO form: a lot
whose remainder is at most the sell quantity is fully consumed and popped;
otherwise the lot absorbs the whole sell quantity and the loop stops. -/
theorem matchSell_cons_mul6 (tk : String) (pid : ℕ) (sp : ℚ) (sd : Date)
    {sq : ℚ} {lot : Lot} (rest : List Lot)
    (hr : Mul6 lot.remaining) (hsq : Mul6 sq) (hg : 0 < round6 sq) :
    matchSell tk pid sp sd sq (lot :: rest) =
      if lot.remaining ≤ sq then
        (mkClosedFragment tk pid lot lot.remaining sp sd
            :: (matchSell tk pid sp sd (sq - lot.remaining) rest).1,
         (matchSell tk pid sp sd (sq - lot.remaining) rest).2)
      else
        ([mkClosedFragment tk pid lot sq sp sd],
         { lot with remaining := lot.remaining - sq } :: rest) := by
  have hq : round6 lot.remaining = lot.remaining := round6_of_mul6 hr
  have hmin : Mul6 (min lot.remaining sq) := mul6_min hr hsq
  have hmatched : round6 (min (round6 lot.remaining) sq) = min lot.remaining sq := by
    rw [hq]; exact round6_of_mul6 hmin
  conv_lhs => unfold matchSell
  rw [if_pos hg]
  simp only [hmatched]
  by_cases hle : lot.remaining ≤ sq
  · rw [min_eq_left hle]
    have h0 : round6 (lot.remaining - lot.remaining) = 0 := by
      rw [sub_self]; exact round6_zero
    have hsq1 : round6 (sq - lot.remaining) = sq - lot.remaining :=
      round6_of_mul6 (mul6_sub hsq hr)
    rw [h0, hsq1, if_pos (by rw [abs_zero, eps]; norm_num), if_pos hle]
  · rw [min_eq_right (le_of_lt (lt_of_not_le hle))]
    have hlt : sq < lot.remaining := lt_of_not_le hle
    have hrem1 : round6 (lot.remaining - sq) = lot.remaining - sq :=
      round6_of_mul6 (mul6_sub hr hsq)
    have hsq0 : round6 (sq - sq) = 0 := by rw [sub_self]; exact round6_zero
    have hpos : 0 < lot.remaining - sq := by linarith
    rw [hrem1, hsq0, round6_zero,
        if_neg (by
          rw [abs_of_pos hpos]
          exact not_lt.mpr (mul6_pos_ge_eps (mul6_sub hr hsq) hpos)),
        if_neg (by norm_num), if_neg hle]

/-- Total matched quantity of the closed fragments originating from buy `i`
(via the ghost `origin` field). -/
def fragSum (ps : List Position) (i : ℕ) : ℚ :=
  (ps.map (fun p => if p.origin = i then p.quantity else 0)).sum

/-- Total remaining quantity of the open lots originating from buy `i`. -/
def remSum (lots : List Lot) (i : ℕ) : ℚ :=
  (lots.map (fun l => if l.origin = i then l.remaining else 0)).sum

theorem fragSum_nil (i : ℕ) : fragSum [] i = 0 := rfl

theorem fragSum_cons (p : Position) (ps : List Position) (i : ℕ) :
    fragSum (p :: ps) i = (if p.origin = i then p.quantity else 0) + fragSum ps i := rfl

theorem fragSum_append (ps qs : List Position) (i : ℕ) :
    fragSum (ps ++ qs) i = fragSum ps i + fragSum qs i := by
  unfold fragSum
  rw [List.map_append, List.sum_append]

theorem remSum_nil (i : ℕ) : remSum [] i = 0 := rfl

theorem remSum_cons (l : Lot) (ls : List Lot) (i : ℕ) :
    remSum (l :: ls) i = (if l.origin = i then l.remaining else 0) + remSum ls i := rfl

theorem remSum_append (ls ms : List Lot) (i : ℕ) :
    remSum (ls ++ ms) i = remSum ls i + remSum ms i := by
  unfold remSum
  rw [List.map_append, List.sum_append]

/-- Conservation across one sell's matching loop: per originating buy, the
emitted fragment quantities plus the surviving remainders equal the
remainders going in; and remainders stay exact multiples of 1e-6. -/
theorem matchSell_conserve (tk : String) (pid : ℕ) (sp : ℚ) (sd : Date)
    (lots : List Lot) : ∀ (sq : ℚ), Mul6 sq → (∀ l ∈ lots, Mul6 l.remaining) →
      ((∀ i, fragSum (matchSell tk pid sp sd sq lots).1 i
          + remSum (matchSell tk pid sp sd sq lots).2 i = remSum lots i)
        ∧ (∀ l ∈ (matchSell tk pid sp sd sq lots).2, Mul6 l.remaining)) := by
  induction lots with
  | nil =>
    intro sq _ _
    refine ⟨fun i => ?_, fun l hl => ?_⟩
    · rw [matchSell_nil]
      show fragSum [] i + remSum [] i = remSum [] i
      rw [fragSum_nil, remSum_nil]
      ring
    · rw [matchSell_nil] at hl
      simp at hl
  | cons lot rest ih =>
    intro sq hsq hl
    have hr : Mul6 lot.remaining := hl lot (List.mem_cons_self _ _)
    have hrest : ∀ l ∈ rest, Mul6 l.remaining := fun l h => hl l (List.mem_cons_of_mem _ h)
    by_cases hg : 0 < round6 sq
    · rw [matchSell_cons_mul6 tk pid sp sd rest hr hsq hg]
      by_cases hle : lot.remaining ≤ sq
      · rw [if_pos hle]
        obtain ⟨ihA, ihB⟩ := ih (sq - lot.remaining) (mul6_sub hsq hr) hrest
        refine ⟨fun i => ?_, ihB⟩
        rw [fragSum_cons, remSum_cons]
        simp only [mkClosedFragment]
        have := ihA i
        linarith
      · rw [if_neg hle]
        refine ⟨fun i => ?_, fun l hmem => ?_⟩
        · rw [fragSum_cons, fragSum_nil, remSum_cons, remSum_cons]
          simp only [mkClosedFragment]
          split_ifs <;> ring
        · rcases List.mem_cons.mp hmem with rfl | hm
          · exact mul6_sub hr hsq
          · exact hrest l hm
    · rw [matchSell_not_pos tk pid sp sd hg]
      refine ⟨fun i => ?_, hl⟩
      rw [fragSum_nil]
      ring

/-- The (rounded) buy quantity contributed by trade id `i` in a trade list:
what the matcher pushes for each buy row. -/
def buySum (ts : List NTrade) (i : ℕ) : ℚ :=
  (ts.map (fun t =>
    if pyLower t.trade_type = "buy" ∧ t.id = i then round6 t.quantity else 0)).sum

theorem buySum_nil (i : ℕ) : buySum [] i = 0 := rfl

theorem buySum_cons (t : NTrade) (ts : List NTrade) (i : ℕ) :
    buySum (t :: ts) i =
      (if pyLower t.trade_type = "buy" ∧ t.id = i then round6 t.quantity else 0)
        + buySum ts i := rfl

/-- Accounting across the whole per-key fold: fragments plus remainders
grow exactly by the rounded quantity of each buy trade processed. -/
theorem foldl_acct (tk : String) (pid : ℕ) (ts : List NTrade) :
    ∀ (s : List Lot × List Position), (∀ l ∈ s.1, Mul6 l.remaining) →
      ((∀ i, fragSum (ts.foldl (stepTrade tk pid) s).2 i
            + remSum (ts.foldl (stepTrade tk pid) s).1 i
          = fragSum s.2 i + remSum s.1 i + buySum ts i)
        ∧ (∀ l ∈ (ts.foldl (stepTrade tk pid) s).1, Mul6 l.remaining)) := by
  induction ts with
  | nil =>
    intro s hs
    refine ⟨fun i => ?_, hs⟩
    rw [List.foldl_nil, buySum_nil]
    ring
  | cons t ts ih =>
    intro s hs
    rw [List.foldl_cons]
    by_cases hbuy : pyLower t.trade_type = "buy"
    · rw [stepTrade_buy t hbuy]
      have hs' : ∀ l ∈ s.1 ++ [stepBuyLot t], Mul6 l.remaining := by
        intro l hmem
        rcases List.mem_append.mp hmem with hm | hm
        · exact hs l hm
        · rcases List.mem_singleton.mp hm with rfl
          exact mul6_round6 _
      obtain ⟨ihA, ihB⟩ := ih (s.1 ++ [stepBuyLot t], s.2) hs'
      refine ⟨fun i => ?_, ihB⟩
      rw [ihA i, remSum_append, remSum_cons, remSum_nil, buySum_cons]
      simp only [stepBuyLot, hbuy, true_and]
      ring
    · by_cases hsell : pyLower t.trade_type = "sell"
      · rw [stepTrade_sell t hsell]
        obtain ⟨msA, msB⟩ :=
          matchSell_conserve tk pid t.price t.date s.1 (round6 t.quantity) (mul6_round6 _) hs
        obtain ⟨ihA, ihB⟩ := ih ((matchSell tk pid t.price t.date (round6 t.quantity) s.1).2,
          s.2 ++ (matchSell tk pid t.price t.date (round6 t.quantity) s.1).1) msB
        refine ⟨fun i => ?_, ihB⟩
        rw [ihA i, fragSum_append, buySum_cons]
        have := msA i
        have hno : ¬ (pyLower t.trade_type = "buy" ∧ t.id = i) := fun hc => hbuy hc.1
        rw [if_neg hno]
        linarith
      · have hid : stepTrade tk pid s t = s := by
          unfold stepTrade
          rw [if_neg hbuy, if_neg hsell]
        rw [hid]
        obtain ⟨ihA, ihB⟩ := ih s hs
        refine ⟨fun i => ?_, ihB⟩
        rw [ihA i, buySum_cons]
        rw [if_neg (fun hc => hbuy hc.1)]
        ring

theorem normalize_id {t : Trade} {b : NTrade} (h : normalize t = some b) : b.id = t.id := by
  simp only [normalize] at h
  split at h
  · cases h
  · cases Option.some.inj h
    rfl

theorem normalize_quantity {t : Trade} {b : NTrade} (h : normalize t = some b) :
    b.quantity = round6 t.quantity := by
  simp only [normalize] at h
  split at h
  · cases h
  · cases Option.some.inj h
    rfl

theorem mem_tradesForKey_round6 {ts : List Trade} {k : String × ℕ} {b : NTrade}
    (hb : b ∈ tradesForKey ts k) : round6 b.quantity = b.quantity := by
  have hb' : b ∈ normalizedTrades ts := List.mem_of_mem_filter hb
  obtain ⟨t, _, ht⟩ := List.mem_filterMap.mp hb'
  rw [normalize_quantity ht]
  exact round6_of_mul6 (mul6_round6 _)

theorem ids_filterMap_sublist (l : List Trade) :
    ((l.filterMap normalize).map NTrade.id).Sublist (l.map Trade.id) := by
  induction l with
  | nil => simp
  | cons t l ih =>
    cases hn : normalize t with
    | none =>
      rw [List.filterMap_cons_none hn, List.map_cons]
      exact ih.cons _
    | some b =>
      rw [List.filterMap_cons_some hn, List.map_cons, List.map_cons, normalize_id hn]
      exact ih.cons₂ _

theorem tradesForKey_ids_nodup {ts : List Trade} (h : (ts.map Trade.id).Nodup)
    (k : String × ℕ) : ((tradesForKey ts k).map NTrade.id).Nodup := by
  have hperm : (sortedTrades ts).Perm ts := List.perm_insertionSort _ _
  have h1 : ((sortedTrades ts).map Trade.id).Nodup := ((hperm.map Trade.id).nodup_iff).mpr h
  have h2 : ((normalizedTrades ts).map NTrade.id).Nodup :=
    List.Nodup.sublist (ids_filterMap_sublist (sortedTrades ts)) h1
  exact List.Nodup.sublist ((List.filter_sublist _).map NTrade.id) h2

theorem buySum_zero_of_not_mem {ts : List NTrade} {i : ℕ}
    (h : i ∉ ts.map NTrade.id) : buySum ts i = 0 := by
  induction ts with
  | nil => rfl
  | cons t ts ih =>
    rw [buySum_cons]
    rw [if_neg (fun hc => h (by rw [← hc.2]; exact List.mem_map_of_mem _ (List.mem_cons_self _ _))),
        ih (fun hm => h (List.mem_map.mpr
          (by obtain ⟨a, ha, hai⟩ := List.mem_map.mp hm; exact ⟨a, List.mem_cons_of_mem _ ha, hai⟩)))]
    ring

theorem buySum_eq_of_nodup {ts : List NTrade} {b : NTrade}
    (hnd : (ts.map NTrade.id).Nodup) (hb : b ∈ ts)
    (hbuy : pyLower b.trade_type = "buy") : buySum ts b.id = round6 b.quantity := by
  induction ts with
  | nil => cases hb
  | cons t ts ih =>
    rw [buySum_cons]
    rw [List.map_cons, List.nodup_cons] at hnd
    rcases List.mem_cons.mp hb with rfl | hmem
    · rw [if_pos ⟨hbuy, rfl⟩, buySum_zero_of_not_mem hnd.1]
      ring
    · have hne : t.id ≠ b.id := by
        intro he
        exact hnd.1 (he ▸ List.mem_map_of_mem NTrade.id hmem)
      rw [if_neg (fun hc => hne hc.2), ih hnd.2 hmem]
      ring

/-- Claim C2: for every trade history with distinct trade ids and every
(ticker, platform) key, each buy trade's normalized quantity is exactly
reconstructed as the sum of the matched quantities of the closed fragments
it originated plus the remaining quantity of its surviving open lot (zero
when the lot was fully consumed and popped); in particular the difference
is within 1e-6. -/
theorem c2_buy_quantity_conservation (ts : List Trade) (k : String × ℕ) (b : NTrade)
    (hids : (ts.map Trade.id).Nodup)
    (hb : b ∈ tradesForKey ts k) (hbuy : b.trade_type = "buy") :
    fragSum (processKey k.1 k.2 (tradesForKey ts k)).2 b.id
        + remSum (processKey k.1 k.2 (tradesForKey ts k)).1 b.id = b.quantity ∧
    |fragSum (processKey k.1 k.2 (tradesForKey ts k)).2 b.id
        + remSum (processKey k.1 k.2 (tradesForKey ts k)).1 b.id - b.quantity| ≤ eps := by
  have hlow : pyLower b.trade_type = "buy" := by rw [hbuy]; decide
  obtain ⟨hA, _⟩ := foldl_acct k.1 k.2 (tradesForKey ts k) ([], []) (by intro l hl; cases hl)
  have heq := hA b.id
  rw [fragSum_nil, remSum_nil] at heq
  rw [buySum_eq_of_nodup (tradesForKey_ids_nodup hids k) hb hlow,
      mem_tradesForKey_round6 hb] at heq
  have hmain : fragSum (processKey k.1 k.2 (tradesForKey ts k)).2 b.id
      + remSum (processKey k.1 k.2 (tradesForKey ts k)).1 b.id = b.quantity := by
    unfold processKey
    linarith
  refine ⟨hmain, ?_⟩
  rw [hmain, sub_self, abs_zero, eps]
  norm_num

/-- Witness for C2 at the concrete (AAPL, platform 1) example, instantiated
at the day-1 buy (id 1, quantity 10). -/
theorem c2_buy_quantity_conservation_witness :
    (aapl_trades.map Trade.id).Nodup ∧
    (⟨1, "AAPL", 1, 100, 10, d1, "buy"⟩ : NTrade) ∈ tradesForKey aapl_trades ("AAPL", 1) ∧
    (⟨1, "AAPL", 1, 100, 10, d1, "buy"⟩ : NTrade).trade_type = "buy" ∧
    (fragSum (processKey ("AAPL", 1).1 ("AAPL", 1).2 (tradesForKey aapl_trades ("AAPL", 1))).2 1
        + remSum (processKey ("AAPL", 1).1 ("AAPL", 1).2 (tradesForKey aapl_trades ("AAPL", 1))).1 1
      = 10 ∧
     |fragSum (processKey ("AAPL", 1).1 ("AAPL", 1).2 (tradesForKey aapl_trades ("AAPL", 1))).2 1
        + remSum (processKey ("AAPL", 1).1 ("AAPL", 1).2 (tradesForKey aapl_trades ("AAPL", 1))).1 1
      - 10| ≤ eps) :=
  ⟨by decide,
   by rw [aapl_key]; exact List.mem_cons_self _ _,
   rfl,
   c2_buy_quantity_conservation aapl_trades ("AAPL", 1) ⟨1, "AAPL", 1, 100, 10, d1, "buy"⟩
     (by decide) (by rw [aapl_key]; exact List.mem_cons_self _ _) rfl⟩

/-! ## Oversold sells are silently truncated (spec §4.1/§8, claim C5) -/

/-- When the sell quantity covers the whole queue (all remainders positive
multiples of 1e-6), every lot is fully matched and popped: the emitted
fragments cover exactly the available quantity and the queue empties; the
unmatched excess produces nothing. -/
theorem matchSell_exhaust (tk : String) (pid : ℕ) (sp : ℚ) (sd : Date)
    (lots : List Lot) : ∀ (sq : ℚ), Mul6 sq →
    (∀ l ∈ lots, Mul6 l.remaining ∧ 0 < l.remaining) →
    (lots.map Lot.remaining).sum ≤ sq →
    (matchSell tk pid sp sd sq lots).2 = [] ∧
    ((matchSell tk pid sp sd sq lots).1.map Position.quantity).sum
      = (lots.map Lot.remaining).sum := by
  induction lots with
  | nil =>
    intro sq _ _ _
    rw [matchSell_nil]
    exact ⟨rfl, rfl⟩
  | cons lot rest ih =>
    intro sq hsq hl hle
    have hr : Mul6 lot.remaining := (hl lot (List.mem_cons_self _ _)).1
    have hrpos : 0 < lot.remaining := (hl lot (List.mem_cons_self _ _)).2
    have hrest : ∀ l ∈ rest, Mul6 l.remaining ∧ 0 < l.remaining :=
      fun l h => hl l (List.mem_cons_of_mem _ h)
    have hsumrest : 0 ≤ (rest.map Lot.remaining).sum :=
      List.sum_nonneg (by
        intro x hx
        obtain ⟨l, hlmem, rfl⟩ := List.mem_map.mp hx
        exact le_of_lt (hrest l hlmem).2)
    rw [List.map_cons, List.sum_cons] at hle
    have hlotle : lot.remaining ≤ sq := by linarith
    have hg : 0 < round6 sq := by
      rw [round6_of_mul6 hsq]
      linarith
    rw [matchSell_cons_mul6 tk pid sp sd rest hr hsq hg, if_pos hlotle]
    obtain ⟨ihA, ihB⟩ := ih (sq - lot.remaining) (mul6_sub hsq hr) hrest (by linarith)
    refine ⟨ihA, ?_⟩
    rw [List.map_cons, List.sum_cons, ihB, List.map_cons, List.sum_cons]
    simp only [mkClosedFragment]

def oversell_trades : List Trade :=
  [⟨1, "XYZ", 1, some 50, 5, d1, some "Buy"⟩,
   ⟨2, "XYZ", 1, some 60, 8, d2, some "Sell"⟩]

theorem oversell_key :
    tradesForKey oversell_trades ("XYZ", 1) =
      [⟨1, "XYZ", 1, 50, 5, d1, "buy"⟩, ⟨2, "XYZ", 1, 60, 8, d2, "sell"⟩] := by
  have h5 : round6 (5 : ℚ) = 5 := by exact_mod_cast r6_lit 5
  have h8 : round6 (8 : ℚ) = 8 := by exact_mod_cast r6_lit 8
  have hb : pyLower (pyStrip "Buy") = "buy" := by decide
  have hs : pyLower (pyStrip "Sell") = "sell" := by decide
  have hsort : sortedTrades oversell_trades = oversell_trades := rfl
  rw [tradesForKey, normalizedTrades, hsort]
  rw [oversell_trades]
  rw [List.filterMap_cons_some (normalize_eq_some _ (by show ¬ round6 (5:ℚ) = 0; rw [h5]; norm_num)),
      List.filterMap_cons_some (normalize_eq_some _ (by show ¬ round6 (8:ℚ) = 0; rw [h8]; norm_num)),
      List.filterMap_nil]
  simp only [h5, h8, hb, hs]
  simp [List.filter]
  exact ⟨hb, hs⟩

/-- Claim C5: a sell exceeding the total open quantity matches only what is
available and the excess vanishes — in general, when the (multiple-of-1e-6)
sell quantity is at least the total remaining quantity of the (positive,
multiple-of-1e-6) queue, the fragments cover exactly the available quantity
and no open lot survives; in particular buy 5@50 (id 1) then sell 8@60
(id 2) yields exactly one closed fragment (qty 5, P/L 50.00), no open
positions, and no record for the 3 excess units. -/
theorem c5_excess_sell_dropped :
    (∀ (tk : String) (pid : ℕ) (sp : ℚ) (sd : Date) (lots : List Lot) (sq : ℚ),
        Mul6 sq → (∀ l ∈ lots, Mul6 l.remaining ∧ 0 < l.remaining) →
        (lots.map Lot.remaining).sum ≤ sq →
        (matchSell tk pid sp sd sq lots).2 = [] ∧
        ((matchSell tk pid sp sd sq lots).1.map Position.quantity).sum
          = (lots.map Lot.remaining).sum) ∧
    processKey "XYZ" 1 (tradesForKey oversell_trades ("XYZ", 1)) =
      ([], [⟨"XYZ", none, "close", 50, 5, d1, some 60, some d2, 1, some 50, 1⟩]) := by
  refine ⟨matchSell_exhaust, ?_⟩
  have h5 : round6 (5 : ℚ) = 5 := by exact_mod_cast r6_lit 5
  have h8 : round6 (8 : ℚ) = 8 := by exact_mod_cast r6_lit 8
  have h3 : round6 (3 : ℚ) = 3 := by exact_mod_cast r6_lit 3
  have h0 : round6 (0 : ℚ) = 0 := round6_zero
  have hlb : pyLower "buy" = "buy" := by decide
  have hls : pyLower "sell" = "sell" := by decide
  rw [oversell_key, processKey, List.foldl_cons,
      stepTrade_buy ⟨1, "XYZ", 1, 50, 5, d1, "buy"⟩ hlb,
      List.foldl_cons, stepTrade_sell ⟨2, "XYZ", 1, 60, 8, d2, "sell"⟩ hls,
      List.foldl_nil]
  simp only [stepBuyLot, List.nil_append, h5, h8]
  have hm : matchSell "XYZ" 1 60 d2 8 [⟨1, 50, 5, d1, 5⟩] =
      ([⟨"XYZ", none, "close", 50, 5, d1, some 60, some d2, 1, some 50, 1⟩], []) := by
    unfold matchSell
    rw [if_pos (by rw [h8]; norm_num)]
    simp only [h5, h8, show min (5:ℚ) 8 = 5 by norm_num [min_def],
               show ((5:ℚ) - 5) = 0 by norm_num, h0,
               show ((8:ℚ) - 5) = 3 by norm_num, h3]
    rw [if_pos (by rw [abs_zero, eps]; norm_num)]
    rw [matchSell_nil]
    simp only [mkClosedFragment]
    norm_num
    exact_mod_cast r2_lit 50
  rw [hm]

/-- Witness for the general part of C5: one lot of remaining 5, sell
quantity 8 — the queue empties and the single fragment has quantity 5. -/
theorem c5_excess_sell_dropped_witness :
    Mul6 8 ∧ (∀ l ∈ [(⟨1, 50, 5, d1, 5⟩ : Lot)], Mul6 l.remaining ∧ 0 < l.remaining) ∧
    (([(⟨1, 50, 5, d1, 5⟩ : Lot)].map Lot.remaining).sum ≤ 8) ∧
    ((matchSell "XYZ" 1 60 d2 8 [⟨1, 50, 5, d1, 5⟩]).2 = [] ∧
     ((matchSell "XYZ" 1 60 d2 8 [⟨1, 50, 5, d1, 5⟩]).1.map Position.quantity).sum
       = ([(⟨1, 50, 5, d1, 5⟩ : Lot)].map Lot.remaining).sum) := by
  have hm6 : Mul6 (8 : ℚ) := ⟨8000000, by norm_num⟩
  have hl : ∀ l ∈ [(⟨1, 50, 5, d1, 5⟩ : Lot)], Mul6 l.remaining ∧ 0 < l.remaining := by
    intro l hmem
    rcases List.mem_singleton.mp hmem with rfl
    exact ⟨⟨5000000, by norm_num⟩, by norm_num⟩
  have hsum : (([(⟨1, 50, 5, d1, 5⟩ : Lot)].map Lot.remaining).sum : ℚ) ≤ 8 := by
    simp
    norm_num
  exact ⟨hm6, hl, hsum,
    c5_excess_sell_dropped.1 "XYZ" 1 60 d2 [⟨1, 50, 5, d1, 5⟩] 8 hm6 hl hsum⟩

/-! ## Ordering of the per-key trade stream (spec §4.1, claim C4) -/

theorem string_data_inj {s t : String} (h : s.data = t.data) : s = t :=
  congrArg String.mk h

instance : IsTotal Trade tradeLe := by
  constructor
  intro a b
  unfold tradeLe
  rcases lt_trichotomy a.ticker.data b.ticker.data with h | h | h
  · exact Or.inl (Or.inl h)
  · have e : a.ticker = b.ticker := string_data_inj h
    rcases lt_trichotomy a.platform_id b.platform_id with p | p | p
    · exact Or.inl (Or.inr ⟨e, Or.inl p⟩)
    · rcases lt_trichotomy a.date.days b.date.days with q | q | q
      · exact Or.inl (Or.inr ⟨e, Or.inr ⟨p, Or.inl q⟩⟩)
      · rcases le_total a.id b.id with r | r
        · exact Or.inl (Or.inr ⟨e, Or.inr ⟨p, Or.inr ⟨q, r⟩⟩⟩)
        · exact Or.inr (Or.inr ⟨e.symm, Or.inr ⟨p.symm, Or.inr ⟨q.symm, r⟩⟩⟩)
      · exact Or.inr (Or.inr ⟨e.symm, Or.inr ⟨p.symm, Or.inl q⟩⟩)
    · exact Or.inr (Or.inr ⟨e.symm, Or.inl p⟩)
  · exact Or.inr (Or.inl h)

instance : IsTrans Trade tradeLe := by
  constructor
  intro a b c hab hbc
  unfold tradeLe at *
  rcases hab with h1 | ⟨e1, h1⟩
  · rcases hbc with h2 | ⟨e2, _⟩
    · exact Or.inl (lt_trans h1 h2)
    · exact Or.inl (e2 ▸ h1)
  · rcases hbc with h2 | ⟨e2, h2⟩
    · exact Or.inl (e1 ▸ h2)
    · refine Or.inr ⟨e1.trans e2, ?_⟩
      rcases h1 with p1 | ⟨ep1, d1⟩ <;> rcases h2 with p2 | ⟨ep2, d2⟩
      · exact Or.inl (lt_trans p1 p2)
      · exact Or.inl (ep2 ▸ p1)
      · exact Or.inl (ep1 ▸ p2)
      · refine Or.inr ⟨ep1.trans ep2, ?_⟩
        rcases d1 with q1 | ⟨eq1, i1⟩ <;> rcases d2 with q2 | ⟨eq2, i2⟩
        · exact Or.inl (lt_trans q1 q2)
        · exact Or.inl (eq2 ▸ q1)
        · exact Or.inl (eq1 ▸ q2)
        · exact Or.inr ⟨eq1.trans eq2, le_trans i1 i2⟩

/-- The per-key processing order: date ascending, id ascending. -/
def dateIdLe (a b : NTrade) : Prop :=
  a.date.days < b.date.days ∨ (a.date.days = b.date.days ∧ a.id ≤ b.id)

/-- `tradeLe` transported to normalized trades. -/
def ntradeLe (a b : NTrade) : Prop :=
  a.ticker.data < b.ticker.data ∨ (a.ticker = b.ticker ∧
    (a.platform_id < b.platform_id ∨ (a.platform_id = b.platform_id ∧ dateIdLe a b)))

theorem normalize_fields {t : Trade} {b : NTrade} (h : normalize t = some b) :
    b.id = t.id ∧ b.ticker = t.ticker ∧ b.platform_id = t.platform_id ∧ b.date = t.date := by
  simp only [normalize] at h
  split at h
  · cases h
  · cases Option.some.inj h
    exact ⟨rfl, rfl, rfl, rfl⟩

theorem pairwise_filterMap_of_pairwise {α β : Type} (f : α → Option β)
    (R : α → α → Prop) (S : β → β → Prop)
    (H : ∀ a b a' b', f a = some a' → f b = some b' → R a b → S a' b') :
    ∀ {l : List α}, l.Pairwise R → (l.filterMap f).Pairwise S := by
  intro l hl
  induction l with
  | nil => simp
  | cons a l ih =>
    rw [List.pairwise_cons] at hl
    cases hf : f a with
    | none =>
      rw [List.filterMap_cons_none hf]
      exact ih hl.2
    | some a' =>
      rw [List.filterMap_cons_some hf, List.pairwise_cons]
      refine ⟨?_, ih hl.2⟩
      intro b' hb'
      obtain ⟨b, hbmem, hfb⟩ := List.mem_filterMap.mp hb'
      exact H a b a' b' hf hfb (hl.1 b hbmem)

theorem normalizedTrades_pairwise (ts : List Trade) :
    (normalizedTrades ts).Pairwise ntradeLe := by
  have hs : List.Sorted tradeLe (sortedTrades ts) :=
    List.sorted_insertionSort tradeLe ts
  refine pairwise_filterMap_of_pairwise normalize tradeLe ntradeLe ?_ hs
  intro a b a' b' ha hb hr
  obtain ⟨ia, ka, pa, da⟩ := normalize_fields ha
  obtain ⟨ib, kb, pb, db⟩ := normalize_fields hb
  unfold tradeLe at hr
  unfold ntradeLe dateIdLe
  rw [ia, ka, pa, da, ib, kb, pb, db]
  exact hr

theorem mem_tradesForKey_key {ts : List Trade} {k : String × ℕ} {b : NTrade}
    (hb : b ∈ tradesForKey ts k) : b.ticker = k.1 ∧ b.platform_id = k.2 := by
  have := List.of_mem_filter hb
  rw [Bool.and_eq_true, beq_iff_eq, beq_iff_eq] at this
  exact this

theorem tradesForKey_sorted (ts : List Trade) (k : String × ℕ) :
    List.Sorted dateIdLe (tradesForKey ts k) := by
  have h1 : (tradesForKey ts k).Pairwise ntradeLe :=
    List.Pairwise.filter _ (normalizedTrades_pairwise ts)
  have h2 : ∀ a ∈ tradesForKey ts k, a.ticker = k.1 ∧ a.platform_id = k.2 :=
    fun a ha => mem_tradesForKey_key ha
  refine List.Pairwise.imp_of_mem ?_ h1
  intro a b ha hb hr
  obtain ⟨ka, pa⟩ := h2 a ha
  obtain ⟨kb, pb⟩ := h2 b hb
  rcases hr with h | ⟨_, h⟩
  · exact absurd h (by rw [ka, kb]; exact lt_irrefl _)
  · rcases h with h | ⟨_, h⟩
    · exact absurd h (by rw [pa, pb]; exact lt_irrefl _)
    · exact h

/-- The first fragment emitted against a nonempty queue always comes from
the queue's head lot. -/
theorem matchSell_head (tk : String) (pid : ℕ) (sp : ℚ) (sd : Date)
    {sq : ℚ} (lot : Lot) (rest : List Lot) (hg : 0 < round6 sq) :
    ((matchSell tk pid sp sd sq (lot :: rest)).1).head? =
      some (mkClosedFragment tk pid lot (round6 (min (round6 lot.remaining) sq)) sp sd) := by
  conv_lhs => unfold matchSell
  rw [if_pos hg]
  simp only [eps]
  split_ifs <;> rfl

/-- Claim C4: per key the matcher consumes trades sorted by
(date ascending, id ascending) — the per-key stream is sorted under
`dateIdLe` and is a permutation of the key's normalized trades in table
order; and with two same-day buys (ids i < j, given in reverse order) and a
later sell, the first emitted fragment originates from the lower-id buy
(and carries its entry price). -/
theorem c4_fifo_tiebreak :
    (∀ (ts : List Trade) (k : String × ℕ),
        List.Sorted dateIdLe (tradesForKey ts k) ∧
        (tradesForKey ts k).Perm ((ts.filterMap normalize).filter
          (fun t => t.ticker == k.1 && t.platform_id == k.2))) ∧
    (∀ (tk : String) (pid : ℕ) (da ds : Date) (i j sid : ℕ) (p1 p2 ps q1 q2 qs : ℚ),
        i < j → da.days < ds.days →
        ¬ round6 q1 = 0 → ¬ round6 q2 = 0 → 0 < round6 qs →
        (((processKey tk pid (tradesForKey
            [⟨j, tk, pid, some p2, q2, da, some "buy"⟩,
             ⟨i, tk, pid, some p1, q1, da, some "buy"⟩,
             ⟨sid, tk, pid, some ps, qs, ds, some "sell"⟩] (tk, pid))).2).head?).map
          (fun f => (f.origin, f.entry_price)) = some (i, p1)) := by
  constructor
  · intro ts k
    refine ⟨tradesForKey_sorted ts k, ?_⟩
    exact ((List.perm_insertionSort tradeLe ts).filterMap normalize).filter _
  · intro tk pid da ds i j sid p1 p2 ps q1 q2 qs hij hdays hq1 hq2 hqs
    set tB : Trade := ⟨j, tk, pid, some p2, q2, da, some "buy"⟩ with htB
    set tA : Trade := ⟨i, tk, pid, some p1, q1, da, some "buy"⟩ with htA
    set tS : Trade := ⟨sid, tk, pid, some ps, qs, ds, some "sell"⟩ with htS
    have hBA : ¬ tradeLe tB tA := by
      unfold tradeLe
      intro h
      rcases h with h | ⟨_, h⟩
      · exact lt_irrefl _ h
      rcases h with h | ⟨_, h⟩
      · exact lt_irrefl _ h
      rcases h with h | ⟨_, h⟩
      · exact lt_irrefl _ h
      · have ej : tB.id = j := rfl
        have ei : tA.id = i := rfl
        omega
    have hAS : tradeLe tA tS := Or.inr ⟨rfl, Or.inr ⟨rfl, Or.inl hdays⟩⟩
    have hBS : tradeLe tB tS := Or.inr ⟨rfl, Or.inr ⟨rfl, Or.inl hdays⟩⟩
    have hsort : sortedTrades [tB, tA, tS] = [tA, tB, tS] := by
      unfold sortedTrades
      simp only [List.insertionSort, List.orderedInsert]
      rw [if_pos hAS]
      simp only [List.orderedInsert]
      rw [if_neg hBA, if_pos hBS]
    have hgetb : pyLower (pyStrip ((some "buy").getD "")) = "buy" := by decide
    have hgets : pyLower (pyStrip ((some "sell").getD "")) = "sell" := by decide
    have hkey : tradesForKey [tB, tA, tS] (tk, pid) =
        [⟨i, tk, pid, p1, round6 q1, da, "buy"⟩,
         ⟨j, tk, pid, p2, round6 q2, da, "buy"⟩,
         ⟨sid, tk, pid, ps, round6 qs, ds, "sell"⟩] := by
      rw [tradesForKey, normalizedTrades, hsort]
      rw [List.filterMap_cons_some (normalize_eq_some tA hq1),
          List.filterMap_cons_some (normalize_eq_some tB hq2),
          List.filterMap_cons_some (normalize_eq_some tS (ne_of_gt hqs)),
          List.filterMap_nil]
      simp only [htA, htB, htS, hgetb, hgets]
      simp [List.filter]
    have hlb : pyLower "buy" = "buy" := by decide
    have hls : pyLower "sell" = "sell" := by decide
    rw [hkey, processKey, List.foldl_cons,
        stepTrade_buy ⟨i, tk, pid, p1, round6 q1, da, "buy"⟩ hlb,
        List.foldl_cons,
        stepTrade_buy ⟨j, tk, pid, p2, round6 q2, da, "buy"⟩ hlb,
        List.foldl_cons,
        stepTrade_sell ⟨sid, tk, pid, ps, round6 qs, ds, "sell"⟩ hls,
        List.foldl_nil]
    simp only [List.nil_append, List.cons_append]
    have hg : 0 < round6 (round6 qs) := by
      rw [round6_of_mul6 (mul6_round6 qs)]
      exact hqs
    rw [round6_of_mul6 (mul6_round6 qs)]
    rw [matchSell_head tk pid ps ds _ _ hg]
    simp [mkClosedFragment, stepBuyLot]

/-- Witness for C4: two same-day buys with ids 1 < 2 entered in reverse
order and a later sell; the first fragment comes from the id-1 buy at its
price 10. -/
theorem c4_fifo_tiebreak_witness :
    (1 : ℕ) < 2 ∧ ((⟨1, 2024⟩ : Date)).days < ((⟨2, 2024⟩ : Date)).days ∧
    ¬ round6 (1 : ℚ) = 0 ∧ 0 < round6 (1 : ℚ) ∧
    (((processKey "T" 7 (tradesForKey
        [⟨2, "T", 7, some 11, 1, ⟨1, 2024⟩, some "buy"⟩,
         ⟨1, "T", 7, some 10, 1, ⟨1, 2024⟩, some "buy"⟩,
         ⟨3, "T", 7, some 12, 1, ⟨2, 2024⟩, some "sell"⟩] ("T", 7))).2).head?).map
      (fun f => (f.origin, f.entry_price)) = some (1, 10) := by
  have h1 : round6 (1 : ℚ) = 1 := by exact_mod_cast r6_lit 1
  refine ⟨by decide, by decide, by rw [h1]; norm_num, by rw [h1]; norm_num, ?_⟩
  exact c4_fifo_tiebreak.2 "T" 7 ⟨1, 2024⟩ ⟨2, 2024⟩ 1 2 3 10 11 12 1 1 1
    (by decide) (by decide) (by rw [h1]; norm_num) (by rw [h1]; norm_num)
    (by rw [h1]; norm_num)

/-! ## Shape of the reconciler's output rows (claims C3, C10) -/

theorem matchSell_mem_closed (tk : String) (pid : ℕ) (sp : ℚ) (sd : Date) :
    ∀ (lots : List Lot) (sq : ℚ) (p : Position),
      p ∈ (matchSell tk pid sp sd sq lots).1 →
      p.ticker = tk ∧ p.platform_id = pid ∧ p.trade_type = none
        ∧ p.position_status = "close" := by
  intro lots
  induction lots with
  | nil =>
    intro sq p hp
    rw [matchSell_nil] at hp
    simp at hp
  | cons lot rest ih =>
    intro sq p hp
    unfold matchSell at hp
    by_cases hg : 0 < round6 sq
    · rw [if_pos hg] at hp
      simp only [eps] at hp
      split_ifs at hp
      · rcases List.mem_cons.mp hp with rfl | hm
        · exact ⟨rfl, rfl, rfl, rfl⟩
        · exact ih _ p hm
      · rcases List.mem_cons.mp hp with rfl | hm
        · exact ⟨rfl, rfl, rfl, rfl⟩
        rcases List.mem_cons.mp hm with rfl | hm'
        · exact ⟨rfl, rfl, rfl, rfl⟩
        · exact ih _ p hm'
      · rcases List.mem_cons.mp hp with rfl | hm
        · exact ⟨rfl, rfl, rfl, rfl⟩
        rcases List.mem_singleton.mp hm with rfl
        exact ⟨rfl, rfl, rfl, rfl⟩
      · rcases List.mem_singleton.mp hp with rfl
        exact ⟨rfl, rfl, rfl, rfl⟩
    · rw [if_neg hg] at hp
      simp at hp

theorem foldl_closed_fields (tk : String) (pid : ℕ) (ts : List NTrade) :
    ∀ s : List Lot × List Position,
      (∀ p ∈ s.2, p.ticker = tk ∧ p.platform_id = pid ∧ p.trade_type = none
        ∧ p.position_status = "close") →
      ∀ p ∈ (ts.foldl (stepTrade tk pid) s).2,
        p.ticker = tk ∧ p.platform_id = pid ∧ p.trade_type = none
          ∧ p.position_status = "close" := by
  induction ts with
  | nil =>
    intro s hs
    exact hs
  | cons t ts ih =>
    intro s hs
    rw [List.foldl_cons]
    by_cases hbuy : pyLower t.trade_type = "buy"
    · rw [stepTrade_buy t hbuy]
      exact ih _ hs
    by_cases hsell : pyLower t.trade_type = "sell"
    · rw [stepTrade_sell t hsell]
      apply ih
      intro p hp
      rcases List.mem_append.mp hp with hm | hm
      · exact hs p hm
      · exact matchSell_mem_closed tk pid _ _ _ _ p hm
    · rw [show stepTrade tk pid s t = s from by
        unfold stepTrade; rw [if_neg hbuy, if_neg hsell]]
      exact ih _ hs

theorem computedClosed_fields {trades : List Trade} {p : Position}
    (hp : p ∈ computedClosedPositions trades) :
    (p.ticker, p.platform_id) ∈ syncKeys trades ∧ p.trade_type = none
      ∧ p.position_status = "close" := by
  obtain ⟨k, hk, hpk⟩ := List.mem_flatMap.mp hp
  obtain ⟨h1, h2, h3, h4⟩ :=
    foldl_closed_fields k.1 k.2 (tradesForKey trades k) ([], [])
      (by intro q hq; simp at hq) p hpk
  refine ⟨?_, h3, h4⟩
  rw [h1, h2]
  exact hk

theorem computedOpen_fields {trades : List Trade} {p : Position}
    (hp : p ∈ computedOpenPositions trades) :
    (p.ticker, p.platform_id) ∈ syncKeys trades ∧ p.trade_type = none
      ∧ p.position_status = "open" := by
  obtain ⟨k, hk, hpk⟩ := List.mem_flatMap.mp hp
  obtain ⟨lot, _, rfl⟩ := List.mem_map.mp hpk
  exact ⟨hk, rfl, rfl⟩

theorem contains_key_iff (keys : List (String × ℕ)) (x : String × ℕ) :
    keys.contains x = true ↔ x ∈ keys := List.elem_iff

/-- Claim C3: reconciliation is a pure function of the trade history —
re-running `sync_positions_from_trades` on an unchanged trades table leaves
the positions table unchanged, and for the affected keys the table contains
exactly the freshly computed closed-then-open position rows. -/
theorem c3_reconciler_idempotent (trades : List Trade) (table : List Position) :
    sync_positions_from_trades trades (sync_positions_from_trades trades table)
      = sync_positions_from_trades trades table ∧
    (sync_positions_from_trades trades table).filter
        (fun p => (syncKeys trades).contains (p.ticker, p.platform_id))
      = computedClosedPositions trades ++ computedOpenPositions trades := by
  have hclosed : ∀ p ∈ computedClosedPositions trades,
      (syncKeys trades).contains (p.ticker, p.platform_id) = true :=
    fun p hp => (contains_key_iff _ _).mpr (computedClosed_fields hp).1
  have hopen : ∀ p ∈ computedOpenPositions trades,
      (syncKeys trades).contains (p.ticker, p.platform_id) = true :=
    fun p hp => (contains_key_iff _ _).mpr (computedOpen_fields hp).1
  have hA : (computedClosedPositions trades).filter
      (fun p => !((syncKeys trades).contains (p.ticker, p.platform_id))) = [] := by
    rw [List.filter_eq_nil_iff]
    intro p hp
    rw [hclosed p hp]
    simp
  have hB : (computedOpenPositions trades).filter
      (fun p => !((syncKeys trades).contains (p.ticker, p.platform_id))) = [] := by
    rw [List.filter_eq_nil_iff]
    intro p hp
    rw [hopen p hp]
    simp
  have hkept : (table.filter
        (fun p => !((syncKeys trades).contains (p.ticker, p.platform_id)))).filter
      (fun p => !((syncKeys trades).contains (p.ticker, p.platform_id)))
      = table.filter (fun p => !((syncKeys trades).contains (p.ticker, p.platform_id))) := by
    rw [List.filter_eq_self]
    intro p hp
    exact (List.mem_filter.mp hp).2
  constructor
  · show (((table.filter _ ++ computedClosedPositions trades ++ computedOpenPositions trades)).filter
        (fun p => !((syncKeys trades).contains (p.ticker, p.platform_id))))
        ++ computedClosedPositions trades ++ computedOpenPositions trades = _
    rw [List.filter_append, List.filter_append, hA, hB, hkept, List.append_nil,
        List.append_nil]
    rfl
  · show ((table.filter _ ++ computedClosedPositions trades ++ computedOpenPositions trades)).filter
        (fun p => (syncKeys trades).contains (p.ticker, p.platform_id)) = _
    rw [List.filter_append, List.filter_append]
    have hk2 : (table.filter
        (fun p => !((syncKeys trades).contains (p.ticker, p.platform_id)))).filter
        (fun p => (syncKeys trades).contains (p.ticker, p.platform_id)) = [] := by
      rw [List.filter_eq_nil_iff]
      intro p hp
      have := (List.mem_filter.mp hp).2
      rw [Bool.not_eq_true'] at this
      rw [this]
      simp
    have hc2 : (computedClosedPositions trades).filter
        (fun p => (syncKeys trades).contains (p.ticker, p.platform_id))
        = computedClosedPositions trades := by
      rw [List.filter_eq_self]
      exact hclosed
    have ho2 : (computedOpenPositions trades).filter
        (fun p => (syncKeys trades).contains (p.ticker, p.platform_id))
        = computedOpenPositions trades := by
      rw [List.filter_eq_self]
      exact hopen
    rw [hk2, hc2, ho2, List.nil_append]

/-- Claim C10: every position row the reconciler produces, open or closed,
carries `trade_type = None`; hence `aggregate_gains` computes its stock
gain in the default "Buy" branch, `(exit - entry) * quantity` — the
sell-initiated-short branch never applies to reconciler rows. -/
theorem c10_reconciler_trade_type_none (trades : List Trade) (p : Position)
    (hp : p ∈ computedClosedPositions trades ∨ p ∈ computedOpenPositions trades) :
    p.trade_type = none ∧
    stock_gain p = (p.exit_price.getD 0 - p.entry_price) * p.quantity := by
  have hnone : p.trade_type = none := by
    rcases hp with hm | hm
    · exact (computedClosed_fields hm).2.1
    · exact (computedOpen_fields hm).2.1
  refine ⟨hnone, ?_⟩
  unfold stock_gain stock_effective_trade_type
  rw [hnone]
  rw [if_neg (by decide)]

theorem aapl_syncKeys : syncKeys aapl_trades = [("AAPL", 1)] := by
  rw [syncKeys, aapl_normalized]
  decide

theorem aapl_computedClosed :
    computedClosedPositions aapl_trades =
      [⟨"AAPL", none, "close", 100, 10, d1, some 120, some d3, 1, some 200, 1⟩,
       ⟨"AAPL", none, "close", 110, 2, d2, some 120, some d3, 1, some 20, 2⟩] := by
  rw [computedClosedPositions, aapl_syncKeys]
  simp only [List.flatMap_cons, List.flatMap_nil, List.append_nil]
  rw [aapl_processKey]

/-- Witness for C10 at the first closed AAPL fragment. -/
theorem c10_reconciler_trade_type_none_witness :
    ((⟨"AAPL", none, "close", 100, 10, d1, some 120, some d3, 1, some 200, 1⟩ : Position)
        ∈ computedClosedPositions aapl_trades ∨
     (⟨"AAPL", none, "close", 100, 10, d1, some 120, some d3, 1, some 200, 1⟩ : Position)
        ∈ computedOpenPositions aapl_trades) ∧
    ((⟨"AAPL", none, "close", 100, 10, d1, some 120, some d3, 1, some 200, 1⟩ : Position).trade_type
        = none ∧
     stock_gain ⟨"AAPL", none, "close", 100, 10, d1, some 120, some d3, 1, some 200, 1⟩
       = ((⟨"AAPL", none, "close", 100, 10, d1, some 120, some d3, 1, some 200, 1⟩ :
            Position).exit_price.getD 0
          - (⟨"AAPL", none, "close", 100, 10, d1, some 120, some d3, 1, some 200, 1⟩ :
            Position).entry_price)
         * (⟨"AAPL", none, "close", 100, 10, d1, some 120, some d3, 1, some 200, 1⟩ :
            Position).quantity) := by
  have hmem : (⟨"AAPL", none, "close", 100, 10, d1, some 120, some d3, 1, some 200, 1⟩ : Position)
      ∈ computedClosedPositions aapl_trades := by
    rw [aapl_computedClosed]
    exact List.mem_cons_self _ _
  exact ⟨Or.inl hmem,
    c10_reconciler_trade_type_none aapl_trades _ (Or.inl hmem)⟩

/-! ## Option settlement claims (C6, C9) -/

theorem map_id_of_eq {α : Type} (l : List α) (f : α → α) (h : ∀ a ∈ l, f a = a) :
    l.map f = l := by
  induction l with
  | nil => rfl
  | cons a l ih =>
    rw [List.map_cons, h a (List.mem_cons_self _ _),
        ih (fun b hb => h b (List.mem_cons_of_mem _ hb))]

def credit_open_trade : OptionTrade :=
  ⟨1, "AAPL", 1, some "Covered Call", 50, none, some d1, some "credit",
   some 2, some 0, none, some "open", none, none, none, none⟩

def debit_open_trade : OptionTrade :=
  ⟨1, "AAPL", 1, some "Long Call", 50, none, some d1, some "debit",
   some 2, some 0, none, some "open", none, none, none, none⟩

/-- Claim C6: when the trade row is found, `close_option_trade` records
`(open - close) * 100 - (open_fee + close_fee)` for a credit trade and
`(close - open) * 100 - (open_fee + close_fee)` otherwise, with every
`None` numeric treated as 0.0 — both as the computed result and in the
updated row; in particular open 2.00, close 0.50, zero fees gives 150.00
credit and -150.00 debit. -/
theorem c6_option_settlement (store : List OptionTrade) (trade_id : ℕ)
    (status : String) (close_date : Date) (ocp : Option ℚ) (notes : Option String)
    (cfee : Option ℚ) (row : OptionTrade)
    (hrow : store.find? (fun r => r.id == trade_id) = some row) :
    ((close_option_trade store trade_id status close_date ocp notes cfee).2 =
        some (if row.transaction_type = some "credit"
          then (row.option_open_price.getD 0 - ocp.getD 0) * 100
            - (row.open_fee.getD 0 + cfee.getD 0)
          else (ocp.getD 0 - row.option_open_price.getD 0) * 100
            - (row.open_fee.getD 0 + cfee.getD 0)) ∧
      (∀ r ∈ (close_option_trade store trade_id status close_date ocp notes cfee).1,
        r.id = trade_id → r.profit_loss =
          some (if row.transaction_type = some "credit"
            then (row.option_open_price.getD 0 - ocp.getD 0) * 100
              - (row.open_fee.getD 0 + cfee.getD 0)
            else (ocp.getD 0 - row.option_open_price.getD 0) * 100
              - (row.open_fee.getD 0 + cfee.getD 0)))) ∧
    (close_option_trade [credit_open_trade] 1 "closed" d2 (some (1/2)) none (some 0)).2
      = some 150 ∧
    (close_option_trade [debit_open_trade] 1 "closed" d2 (some (1/2)) none (some 0)).2
      = some (-150) := by
  refine ⟨⟨?_, ?_⟩, ?_, ?_⟩
  · unfold close_option_trade
    rw [hrow]
  · intro r hr hid
    unfold close_option_trade at hr
    rw [hrow] at hr
    simp only [] at hr
    obtain ⟨r0, _, hr0⟩ := List.mem_map.mp hr
    by_cases h0 : r0.id = trade_id
    · rw [if_pos h0] at hr0
      rw [← hr0]
    · rw [if_neg h0] at hr0
      rw [← hr0] at hid
      exact absurd hid h0
  · have hf : ([credit_open_trade].find? (fun r => r.id == 1)) = some credit_open_trade := rfl
    unfold close_option_trade
    rw [hf]
    simp only [credit_open_trade, Option.getD_some]
    simp only [if_true]
    norm_num
  · have hf : ([debit_open_trade].find? (fun r => r.id == 1)) = some debit_open_trade := rfl
    unfold close_option_trade
    rw [hf]
    simp only [debit_open_trade, Option.getD_some]
    rw [if_neg (by decide)]
    norm_num

/-- Witness for C6 at a one-row store. -/
theorem c6_option_settlement_witness :
    ([credit_open_trade].find? (fun r => r.id == 1)) = some credit_open_trade ∧
    ((close_option_trade [credit_open_trade] 1 "closed" d2 (some (1/2)) none (some 0)).2 =
        some (if credit_open_trade.transaction_type = some "credit"
          then (credit_open_trade.option_open_price.getD 0 - (some (1/2) : Option ℚ).getD 0) * 100
            - (credit_open_trade.open_fee.getD 0 + (some 0 : Option ℚ).getD 0)
          else ((some (1/2) : Option ℚ).getD 0 - credit_open_trade.option_open_price.getD 0) * 100
            - (credit_open_trade.open_fee.getD 0 + (some 0 : Option ℚ).getD 0)) ∧
      (∀ r ∈ (close_option_trade [credit_open_trade] 1 "closed" d2 (some (1/2)) none (some 0)).1,
        r.id = 1 → r.profit_loss =
          some (if credit_open_trade.transaction_type = some "credit"
            then (credit_open_trade.option_open_price.getD 0 - (some (1/2) : Option ℚ).getD 0) * 100
              - (credit_open_trade.open_fee.getD 0 + (some 0 : Option ℚ).getD 0)
            else ((some (1/2) : Option ℚ).getD 0 - credit_open_trade.option_open_price.getD 0) * 100
              - (credit_open_trade.open_fee.getD 0 + (some 0 : Option ℚ).getD 0)))) :=
  ⟨rfl, (c6_option_settlement [credit_open_trade] 1 "closed" d2 (some (1/2)) none (some 0)
      credit_open_trade rfl).1⟩

/-- Claim C9: closing an id that matches no option-trade row leaves the
store untouched and yields no profit/loss (the not-found outcome); nothing
is raised and no partial mutation occurs. -/
theorem c9_close_missing_id (store : List OptionTrade) (trade_id : ℕ)
    (status : String) (close_date : Date) (ocp : Option ℚ) (notes : Option String)
    (cfee : Option ℚ)
    (h : store.find? (fun r => r.id == trade_id) = none) :
    close_option_trade store trade_id status close_date ocp notes cfee = (store, none) := by
  have hne : ∀ r ∈ store, r.id ≠ trade_id := by
    intro r hr
    have := List.find?_eq_none.mp h r hr
    simpa using this
  unfold close_option_trade
  rw [h]
  rw [map_id_of_eq store _ (fun r hr => if_neg (hne r hr))]

/-- Witness for C9: no row has id 99. -/
theorem c9_close_missing_id_witness :
    ([credit_open_trade].find? (fun r => r.id == 99)) = none ∧
    close_option_trade [credit_open_trade] 99 "closed" d2 (some (1/2)) none (some 0)
      = ([credit_open_trade], none) :=
  ⟨rfl, c9_close_missing_id [credit_open_trade] 99 "closed" d2 (some (1/2)) none (some 0) rfl⟩

/-! ## Assignment synthetic-trade side (claim C7) and tax statuses (claim C8) -/

theorem leadsWith_iff (sub : List Char) :
    ∀ l, leadsWith sub l = true ↔ ∃ t, l = sub ++ t := by
  induction sub with
  | nil =>
    intro l
    constructor
    · intro _
      exact ⟨l, rfl⟩
    · intro _
      rfl
  | cons c cs ih =>
    intro l
    cases l with
    | nil =>
      constructor
      · intro h
        cases h
      · rintro ⟨t, ht⟩
        cases ht
    | cons b bs =>
      constructor
      · intro h
        unfold leadsWith at h
        rw [Bool.and_eq_true] at h
        obtain ⟨t, ht⟩ := (ih bs).mp h.2
        have : c = b := by simpa using h.1
        exact ⟨t, by rw [ht, ← this]; rfl⟩
      · rintro ⟨t, ht⟩
        injection ht with h1 h2
        unfold leadsWith
        rw [Bool.and_eq_true]
        exact ⟨by simp [h1], (ih bs).mpr ⟨t, h2⟩⟩

theorem occursIn_iff (sub : List Char) :
    ∀ l, occursInChars sub l = true ↔ ∃ p t, l = p ++ (sub ++ t) := by
  intro l
  induction l with
  | nil =>
    unfold occursInChars
    rw [leadsWith_iff]
    constructor
    · rintro ⟨t, ht⟩
      exact ⟨[], t, ht⟩
    · rintro ⟨p, t, ht⟩
      rcases List.append_eq_nil.mp ht.symm with ⟨rfl, h2⟩
      exact ⟨t, by simpa using ht⟩
  | cons c rest ih =>
    unfold occursInChars
    rw [Bool.or_eq_true, leadsWith_iff, ih]
    constructor
    · rintro (⟨t, ht⟩ | ⟨p, t, ht⟩)
      · exact ⟨[], t, by simpa using ht⟩
      · exact ⟨c :: p, t, by rw [List.cons_append, ← ht]⟩
    · rintro ⟨p, t, ht⟩
      cases p with
      | nil => exact Or.inl ⟨t, by simpa using ht⟩
      | cons x xs =>
        injection ht with h1 h2
        exact Or.inr ⟨xs, t, h2⟩

/-- Whenever `"covered call"` occurs in a (lowercased) strategy string,
so does `"call"`: the `elif` branch that would emit a Sell is unreachable. -/
theorem covered_call_implies_call {s : String}
    (h : py_in "covered call" s = true) : py_in "call" s = true := by
  unfold py_in at *
  obtain ⟨p, t, ht⟩ := (occursIn_iff _ _).mp h
  refine (occursIn_iff _ _).mpr ⟨p ++ "covered ".data, t, ?_⟩
  rw [ht, show ("covered call").data = "covered ".data ++ "call".data from rfl]
  simp [List.append_assoc]

def covered_call_open : OptionTrade :=
  ⟨2, "AAPL", 1, some "Covered Call", 55, none, some d1, some "credit",
   some 2, some 0, none, some "open", none, none, none, none⟩

def cash_secured_put_open : OptionTrade :=
  ⟨3, "MSFT", 1, some "Cash Secured Put", 40, none, some d1, some "credit",
   some 1, some 0, none, some "open", none, none, none, none⟩

/-- Claim C7 — code behavior at the failing input: on `assigned` close the
code inserts a 100-share trade at the strike price dated at the close date,
but its side is `"Buy"` for a covered call (the claim requires a sell) as
well as for a cash-secured put; the `"Sell"` branch is unreachable because
any strategy containing `"covered call"` already contains `"call"` and
takes the first branch. -/
theorem c7_assignment_side_is_buy :
    assignment_synthetic_trade covered_call_open "assigned" d3 =
      some ⟨"AAPL", 1, 55, 100, d3, "Buy"⟩ ∧
    assignment_synthetic_trade cash_secured_put_open "assigned" d3 =
      some ⟨"MSFT", 1, 40, 100, d3, "Buy"⟩ ∧
    assignment_synthetic_trade covered_call_open "closed" d3 = none ∧
    (∀ s : String, py_in "covered call" (pyLower s) = true →
      assignment_trade_type (some s) = "Buy") := by
  refine ⟨?_, ?_, ?_, ?_⟩
  · unfold assignment_synthetic_trade
    rw [if_pos (Or.inl rfl)]
    have : assignment_trade_type covered_call_open.strategy = "Buy" := by
      unfold assignment_trade_type
      rw [if_pos (by decide)]
    rw [this]
    rfl
  · unfold assignment_synthetic_trade
    rw [if_pos (Or.inl rfl)]
    have : assignment_trade_type cash_secured_put_open.strategy = "Buy" := by
      unfold assignment_trade_type
      rw [if_pos (by decide)]
    rw [this]
    rfl
  · unfold assignment_synthetic_trade
    rw [if_neg (by decide)]
  · intro s hs
    have hcall : py_in "call" (pyLower s) = true := covered_call_implies_call hs
    simp only [assignment_trade_type, Option.getD_some, hcall, Bool.true_or, if_true]

/-- Witness for C7's general conjunct at the strategy "Covered Call". -/
theorem c7_assignment_side_is_buy_witness :
    py_in "covered call" (pyLower "Covered Call") = true ∧
    assignment_trade_type (some "Covered Call") = "Buy" :=
  ⟨by decide, c7_assignment_side_is_buy.2.2.2 "Covered Call" (by decide)⟩

def assigned_opt : OptionTrade :=
  ⟨10, "AAPL", 1, some "Covered Call", 50, none, some ⟨100, 2024⟩, some "credit",
   some 2, some 0, none, some "assigned", some ⟨130, 2024⟩, some (1/2), some 0, some 150⟩

def closed_opt : OptionTrade :=
  ⟨11, "MSFT", 1, some "Long Put", 40, none, some ⟨100, 2024⟩, some "debit",
   some 1, some 0, none, some "closed", some ⟨120, 2024⟩, some 2, some 0, some 100⟩

/-- Claim C8 — code behavior at the failing input: `aggregate_gains` loads
only the statuses expired, exercised and closed, so an `assigned` option
trade with both boundary dates and a recorded profit of 150 contributes
nothing: with one assigned and one closed trade only the closed trade's 100
(taxed short-term at 0.24) appears, and with the assigned trade alone the
aggregation is empty. -/
theorem c8_assigned_status_excluded :
    aggregate_gains [] [assigned_opt, closed_opt] = [(2024, 100, 24)] ∧
    aggregate_gains [] [assigned_opt] = [] := by
  constructor
  · simp only [aggregate_gains, closed_option_statuses, List.flatMap_cons, List.flatMap_nil,
      List.append_nil]
    rw [show load_option_trades_status [assigned_opt, closed_opt] "expired" = [] from rfl,
        show load_option_trades_status [assigned_opt, closed_opt] "exercised" = [] from rfl,
        show load_option_trades_status [assigned_opt, closed_opt] "closed" = [closed_opt] from rfl]
    simp only [List.nil_append, List.foldl_cons, List.foldl_nil]
    simp only [option_step, closed_opt, Option.getD_some, upsertYear, tax_rate_for,
      long_term_days]
    norm_num
  · simp only [aggregate_gains, closed_option_statuses, List.flatMap_cons, List.flatMap_nil,
      List.append_nil]
    rw [show load_option_trades_status [assigned_opt] "expired" = [] from rfl,
        show load_option_trades_status [assigned_opt] "exercised" = [] from rfl,
        show load_option_trades_status [assigned_opt] "closed" = [] from rfl]
    rfl

end TradeTracker
